import Mathlib

/-!
Verification development for the browser audio pipeline of this repository
(base64 transport helpers, `downsampleBuffer`, `createPcmBlob`, `decodeAudioData`).

Modelling conventions:
* JS numbers are modelled as exact rationals (`ℚ`); sample rates and samples are `ℚ`.
* Bytes and character codes are naturals (`ℕ`); a byte sequence is a `List ℕ` whose
  members are `< 256`.
* The `while`/`for` loops of the source are translated into structurally recursive
  functions whose fuel argument is exactly the number of iterations the loop
  condition admits; the correspondence is noted at each definition.
* Platform primitives used by the source (`btoa`, `atob`, `Math.round`, typed-array
  coercions, `AudioContext.createBuffer`) are modelled after their ECMAScript /
  Web Audio specifications.
-/

/-- JS `Math.round`: nearest integer, ties toward positive infinity. -/
def jsRound (q : ℚ) : ℤ := ⌊q + 1 / 2⌋

/-- Truncation toward zero, as in ECMAScript integral coercions of finite values. -/
def ratTrunc (q : ℚ) : ℤ := if 0 ≤ q then ⌊q⌋ else ⌈q⌉

/-- ECMAScript ToInt16 (assignment into an `Int16Array`): truncate toward zero and
wrap modulo 2^16 into [-32768, 32767]. -/
def toInt16 (q : ℚ) : ℤ :=
  let m := ratTrunc q % 65536
  if m < 32768 then m else m - 65536

/-- ECMAScript ToUint32 on a finite nonnegative value (WebIDL `unsigned long`
conversion applied to the `length` argument of `createBuffer`). -/
def toUint32 (q : ℚ) : ℕ := (ratTrunc q % (2 ^ 32 : ℤ)).toNat

/-- Code of the i-th character of the standard base64 alphabet
(`A-Z`, `a-z`, `0-9`, `+`, `/`). -/
def b64Code (n : ℕ) : ℕ :=
  if n < 26 then 65 + n
  else if n < 52 then 97 + (n - 26)
  else if n < 62 then 48 + (n - 52)
  else if n = 62 then 43
  else 47

/-- Value of a base64 alphabet character code. Real `atob` throws on characters
outside the alphabet; that branch (the final 0) is never reached when decoding
`btoa` output, the only use in this development. -/
def b64Val (c : ℕ) : ℕ :=
  if 65 ≤ c ∧ c ≤ 90 then c - 65
  else if 97 ≤ c ∧ c ≤ 122 then 26 + (c - 97)
  else if 48 ≤ c ∧ c ≤ 57 then 52 + (c - 48)
  else if c = 43 then 62
  else if c = 47 then 63
  else 0

/-- Platform `btoa` on a binary string, given as the list of its character codes
(all `< 256`): standard base64, 3 bytes to 4 characters, `=` (code 61) padding. -/
def btoa : List ℕ → List ℕ
  | [] => []
  | [b0] => [b64Code (b0 / 4), b64Code (b0 % 4 * 16), 61, 61]
  | [b0, b1] => [b64Code (b0 / 4), b64Code (b0 % 4 * 16 + b1 / 16), b64Code (b1 % 16 * 4), 61]
  | b0 :: b1 :: b2 :: rest =>
      b64Code (b0 / 4) :: b64Code (b0 % 4 * 16 + b1 / 16) ::
        b64Code (b1 % 16 * 4 + b2 / 64) :: b64Code (b2 % 64) :: btoa rest

/-- Removal of the trailing `=` padding (code 61) done by `atob` before decoding.
Real `atob` accepts at most two trailing `=`; `btoa` output never has more. -/
def stripPadding (s : List ℕ) : List ℕ :=
  ((s.reverse.dropWhile (fun c => c == 61)).reverse)

/-- Sextet values back to bytes: 4 sextets to 3 bytes, a final group of 3 (resp. 2)
sextets to 2 (resp. 1) bytes. A final group of 1 sextet makes real `atob` throw;
it never arises from `btoa` output. -/
def sextetsToBytes : List ℕ → List ℕ
  | s0 :: s1 :: s2 :: s3 :: rest =>
      (s0 * 4 + s1 / 16) :: (s1 % 16 * 16 + s2 / 4) :: (s2 % 4 * 64 + s3) ::
        sextetsToBytes rest
  | [s0, s1, s2] => [s0 * 4 + s1 / 16, s1 % 16 * 16 + s2 / 4]
  | [s0, s1] => [s0 * 4 + s1 / 16]
  | [_] => []
  | [] => []

/-- Platform `atob`: strip padding, map characters to sextet values, reassemble bytes. -/
def atob (s : List ℕ) : List ℕ := sextetsToBytes ((stripPadding s).map b64Val)

/-- `base64ToUint8Array` from the source: `atob`, then `charCodeAt` each character
into a byte array. On character codes the code-to-byte step is the identity. -/
def base64ToUint8Array (base64 : List ℕ) : List ℕ := atob base64

/-- `arrayBufferToBase64` from the source: build a binary string from the bytes via
`String.fromCharCode` (identity on the codes), then `btoa`. -/
def arrayBufferToBase64 (buffer : List ℕ) : List ℕ := btoa buffer

/-- Inner `for` loop of `downsampleBuffer`: starting at index `i`, while
`i < nextOffsetBuffer ∧ i < buffer.length`, add `buffer[i]` to `accum` and bump
`count`. The fuel is the exact number of remaining iterations,
`(min nextOffsetBuffer buffer.length - i).toNat`: it is positive exactly when the
loop condition holds, and the caller maintains this invariant. A read below index 0
(impossible for the positive rates of every claim; JS would produce NaN) is modelled
as reading index 0. -/
def accumLoop (buffer : List ℚ) (nextOffsetBuffer : ℤ) : ℕ → ℤ → ℚ → ℕ → ℚ × ℕ
  | 0, _, accum, count => (accum, count)
  | fuel + 1, i, accum, count =>
      accumLoop buffer nextOffsetBuffer fuel (i + 1) (accum + buffer.getD i.toNat 0) (count + 1)

/-- Main `while` loop of `downsampleBuffer`: while `offsetResult < newLength`,
compute `nextOffsetBuffer = Math.round((offsetResult + 1) * sampleRatio)`, average
the input window, append the average (or 0 for an empty window), and advance.
The fuel is `newLength - offsetResult`, the exact number of remaining iterations:
it is positive exactly when the loop condition `offsetResult < newLength` holds. -/
def dsLoop (buffer : List ℚ) (sampleRatio : ℚ) : ℕ → ℕ → ℤ → List ℚ
  | 0, _, _ => []
  | fuel + 1, offsetResult, offsetBuffer =>
      let nextOffsetBuffer := jsRound (((offsetResult : ℚ) + 1) * sampleRatio)
      let ac := accumLoop buffer nextOffsetBuffer
        (min nextOffsetBuffer (buffer.length : ℤ) - offsetBuffer).toNat offsetBuffer 0 0
      (if 0 < ac.2 then ac.1 / (ac.2 : ℚ) else 0) ::
        dsLoop buffer sampleRatio fuel (offsetResult + 1) nextOffsetBuffer

/-- `downsampleBuffer` from the source. If the rates are equal the input is returned
unchanged; otherwise block-average into `newLength = Math.round(length / ratio)`
output samples. `Float32Array(newLength)` would throw for a negative `newLength`,
which cannot occur for positive rates; the model takes `toNat`. -/
def downsampleBuffer (buffer : List ℚ) (inputSampleRate outputSampleRate : ℚ) : List ℚ :=
  if inputSampleRate = outputSampleRate then buffer
  else
    let sampleRatio := inputSampleRate / outputSampleRate
    let newLength := (jsRound ((buffer.length : ℚ) / sampleRatio)).toNat
    dsLoop buffer sampleRatio newLength 0 0

/-- Body of the Float32-to-Int16 conversion loop of `createPcmBlob`: clamp to
[-1, 1], scale the negative branch by 0x8000 and the nonnegative branch by 0x7FFF,
and assign into an `Int16Array` (ToInt16 truncation). -/
def quantizeSample (x : ℚ) : ℤ :=
  let s := max (-1) (min 1 x)
  if s < 0 then toInt16 (s * 32768) else toInt16 (s * 32767)

/-- Little-endian two-byte layout of one `Int16Array` element in its backing buffer. -/
def int16ToBytes (v : ℤ) : List ℕ :=
  let u := (v % 65536).toNat
  [u % 256, u / 256]

/-- The `Blob` value produced by `createPcmBlob`: base64 text plus mime tag. -/
structure PcmBlob where
  data : List ℕ
  mimeType : String
deriving DecidableEq

/-- `createPcmBlob` from the source: downsample to the fixed 16000 Hz target,
quantize each sample to Int16, serialize the Int16 buffer little-endian, and
base64-encode it. -/
def createPcmBlob (data : List ℚ) (inputSampleRate : ℚ) : PcmBlob :=
  let downsampledData := downsampleBuffer data inputSampleRate 16000
  let int16 := downsampledData.map quantizeSample
  { data := arrayBufferToBase64 ((int16.map int16ToBytes).flatten),
    mimeType := "audio/pcm;rate=16000" }

/-- Failure kinds of `decodeAudioData`: `rangeError` is the `RangeError` thrown by
`new Int16Array(buffer)` on a buffer whose byte length is odd; `notSupported` is the
`NotSupportedError` thrown by `AudioContext.createBuffer` for arguments outside its
nominal range. -/
inductive DecodeError
  | rangeError
  | notSupported
deriving DecidableEq

/-- The Web Audio `AudioBuffer` as far as the decoder observes it. -/
structure JSAudioBuffer where
  numberOfChannels : ℕ
  length : ℕ
  sampleRate : ℚ
  channels : List (List ℚ)
deriving DecidableEq

/-- `AudioContext.createBuffer`: the Web Audio spec mandates a `NotSupportedError`
when any argument lies outside its nominal range — channel count outside [1, 32],
frame length 0, or sample rate outside [8000, 96000] (in particular a zero or
negative rate must be rejected by every conforming implementation); otherwise it
allocates zero-filled channels. A genuine out-of-memory failure is environmental and
not modelled. -/
def createBuffer (numChannels bufLength : ℕ) (sampleRate : ℚ) :
    Except DecodeError JSAudioBuffer :=
  if numChannels = 0 ∨ 32 < numChannels ∨ bufLength = 0 ∨
      sampleRate < 8000 ∨ 96000 < sampleRate then
    Except.error DecodeError.notSupported
  else
    Except.ok ⟨numChannels, bufLength, sampleRate,
      List.replicate numChannels (List.replicate bufLength 0)⟩

/-- Reinterpretation of the byte buffer as an `Int16Array`: consecutive
little-endian pairs, sign according to the 16-bit two's complement value. -/
def bytesToInt16List : List ℕ → List ℤ
  | b0 :: b1 :: rest =>
      (let u := b0 + 256 * b1
       if u < 32768 then (u : ℤ) else (u : ℤ) - 65536) :: bytesToInt16List rest
  | _ => []

/-- Inner fill loop of `decodeAudioData` for one channel:
`for (i = 0; i < frameCount; i++) channelData[i] = dataInt16[i*numChannels+channel]/32768`.
`frameCount` is the (possibly fractional) JS quotient, so the loop runs
`⌈frameCount⌉.toNat` iterations — the fuel, positive exactly when `(i:ℚ) < frameCount`
holds under the caller's invariant. A write at an index at or past the channel length
is a silent no-op on a typed array (`List.set` mirrors this); a read past the end of
`dataInt16` (JS `undefined`, hence NaN) happens only in iterations whose write is
such a no-op, so the `getD` default 0 is never observable. -/
def fillChannel (dataInt16 : List ℤ) (numChannels channel : ℕ) :
    ℕ → ℕ → List ℚ → List ℚ
  | 0, _, channelData => channelData
  | fuel + 1, i, channelData =>
      fillChannel dataInt16 numChannels channel fuel (i + 1)
        (channelData.set i ((dataInt16.getD (i * numChannels + channel) 0 : ℚ) / 32768))

/-- `decodeAudioData` from the source. `new Int16Array(data.buffer)` throws a
`RangeError` when the byte length is odd. `frameCount` is the JS (float) quotient
`dataInt16.length / numChannels`; `createBuffer` receives it through the WebIDL
`unsigned long` coercion `toUint32`. With `numChannels = 0` JS produces
`Infinity` (or NaN for empty data), whose ToUint32 image is 0, the same value this
model's total division produces. -/
def decodeAudioData (data : List ℕ) (sampleRate : ℚ) (numChannels : ℕ) :
    Except DecodeError JSAudioBuffer :=
  if data.length % 2 ≠ 0 then Except.error DecodeError.rangeError
  else
    let dataInt16 := bytesToInt16List data
    let frameCount : ℚ := (dataInt16.length : ℚ) / (numChannels : ℚ)
    match createBuffer numChannels (toUint32 frameCount) sampleRate with
    | Except.error e => Except.error e
    | Except.ok buffer =>
        Except.ok { buffer with
          channels := (List.range numChannels).map (fun channel =>
            fillChannel dataInt16 numChannels channel (⌈frameCount⌉.toNat) 0
              (List.replicate buffer.length 0)) }

/-- The composite `decode(encode([s]))[0]` of the round-trip claim: encode a single
sample at input rate 16000 (so downsampling is the identity), decode the transported
bytes at 16000 Hz mono, and read the first sample of the first channel. -/
def encodeDecodeFirst (s : ℚ) : Option ℚ :=
  match decodeAudioData (base64ToUint8Array (createPcmBlob [s] 16000).data) 16000 1 with
  | Except.ok buffer => (buffer.channels.headD []).head?
  | Except.error _ => none

/-- Value of `offsetBuffer` at the start of iteration `j` of the main loop of
`downsampleBuffer`: 0 initially, afterwards the previous `nextOffsetBuffer`. -/
def windowStartI (r : ℚ) (j : ℕ) : ℤ :=
  if j = 0 then 0 else jsRound ((j : ℚ) * r)

/-- The list of input samples the j-th averaging window consumes. -/
def windowList (x : List ℚ) (r : ℚ) (j : ℕ) : List ℚ :=
  (x.drop (windowStartI r j).toNat).take
    ((min (jsRound (((j : ℚ) + 1) * r)) (x.length : ℤ) - windowStartI r j).toNat)

/-- Closed form of the j-th output sample of the main loop of `downsampleBuffer`:
mean of the j-th window, 0 when that window is empty. -/
def outVal (x : List ℚ) (r : ℚ) (j : ℕ) : ℚ :=
  let w := windowList x r j
  if 0 < w.length then w.sum / (w.length : ℚ) else 0

/-! ## Base64 round trip -/

theorem b64Val_b64Code : ∀ n < 64, b64Val (b64Code n) = n := by decide

theorem b64Code_ne_61 (n : ℕ) : b64Code n ≠ 61 := by
  unfold b64Code
  split
  · omega
  · split
    · omega
    · split
      · omega
      · split <;> omega

theorem stripPadding_append (l1 l2 : List ℕ) (h : ∀ c ∈ l1, c ≠ 61) :
    stripPadding (l1 ++ l2) = l1 ++ stripPadding l2 := by
  unfold stripPadding
  rw [List.reverse_append, List.dropWhile_append]
  split
  next hEmpty =>
    have hl1 : l1.reverse.dropWhile (fun c => c == 61) = l1.reverse := by
      cases hrev : l1.reverse with
      | nil => rfl
      | cons a t =>
        have ha : a ∈ l1 := by
          have : a ∈ l1.reverse := by rw [hrev]; exact List.mem_cons_self a t
          simpa using this
        rw [List.dropWhile_cons]
        simp [h a ha]
    have h2 : (List.dropWhile (fun c => c == 61) l2.reverse).reverse = ([] : List ℕ) := by
      simp only [List.isEmpty_iff] at hEmpty
      simp [hEmpty]
    rw [hl1, List.reverse_reverse, h2, List.append_nil]
  next =>
    rw [List.reverse_append, List.reverse_reverse]

theorem b64_roundtrip : ∀ (b : List ℕ), (∀ x ∈ b, x < 256) → atob (btoa b) = b
  | [], _ => rfl
  | [b0], h => by
    have hb0 : b0 < 256 := h b0 (by simp)
    have hne := b64Code_ne_61
    unfold btoa atob
    have hs : stripPadding [b64Code (b0 / 4), b64Code (b0 % 4 * 16), 61, 61] =
        [b64Code (b0 / 4), b64Code (b0 % 4 * 16)] := by
      have := stripPadding_append [b64Code (b0 / 4), b64Code (b0 % 4 * 16)] [61, 61]
        (by intro c hc; simp at hc; rcases hc with h1 | h1 <;> simp [h1, hne])
      simpa [stripPadding] using this
    rw [hs]
    simp only [List.map]
    rw [b64Val_b64Code _ (by omega), b64Val_b64Code _ (by omega)]
    unfold sextetsToBytes
    simp only [List.cons.injEq, and_true]
    omega
  | [b0, b1], h => by
    have hb0 : b0 < 256 := h b0 (by simp)
    have hb1 : b1 < 256 := h b1 (by simp)
    have hne := b64Code_ne_61
    unfold btoa atob
    have hs : stripPadding [b64Code (b0 / 4), b64Code (b0 % 4 * 16 + b1 / 16),
        b64Code (b1 % 16 * 4), 61] =
        [b64Code (b0 / 4), b64Code (b0 % 4 * 16 + b1 / 16), b64Code (b1 % 16 * 4)] := by
      have := stripPadding_append
        [b64Code (b0 / 4), b64Code (b0 % 4 * 16 + b1 / 16), b64Code (b1 % 16 * 4)] [61]
        (by intro c hc; simp at hc; rcases hc with h1 | h1 | h1 <;> simp [h1, hne])
      simpa [stripPadding] using this
    rw [hs]
    simp only [List.map]
    rw [b64Val_b64Code _ (by omega), b64Val_b64Code _ (by omega),
      b64Val_b64Code _ (by omega)]
    unfold sextetsToBytes
    simp only [List.cons.injEq, and_true]
    omega
  | b0 :: b1 :: b2 :: rest, h => by
    have hb0 : b0 < 256 := h b0 (by simp)
    have hb1 : b1 < 256 := h b1 (by simp)
    have hb2 : b2 < 256 := h b2 (by simp)
    have hrest : ∀ x ∈ rest, x < 256 := fun x hx => h x (by simp [hx])
    have hne := b64Code_ne_61
    have ih := b64_roundtrip rest hrest
    show atob (b64Code (b0 / 4) :: b64Code (b0 % 4 * 16 + b1 / 16) ::
      b64Code (b1 % 16 * 4 + b2 / 64) :: b64Code (b2 % 64) :: btoa rest) = _
    unfold atob
    have hs : stripPadding (b64Code (b0 / 4) :: b64Code (b0 % 4 * 16 + b1 / 16) ::
        b64Code (b1 % 16 * 4 + b2 / 64) :: b64Code (b2 % 64) :: btoa rest) =
        b64Code (b0 / 4) :: b64Code (b0 % 4 * 16 + b1 / 16) ::
        b64Code (b1 % 16 * 4 + b2 / 64) :: b64Code (b2 % 64) :: stripPadding (btoa rest) := by
      have := stripPadding_append [b64Code (b0 / 4), b64Code (b0 % 4 * 16 + b1 / 16),
        b64Code (b1 % 16 * 4 + b2 / 64), b64Code (b2 % 64)] (btoa rest)
        (by intro c hc; simp at hc; rcases hc with h1 | h1 | h1 | h1 <;> simp [h1, hne])
      simpa using this
    rw [hs]
    simp only [List.map]
    rw [b64Val_b64Code _ (by omega), b64Val_b64Code _ (by omega),
      b64Val_b64Code _ (by omega), b64Val_b64Code _ (by omega)]
    unfold sextetsToBytes
    simp only [List.cons.injEq]
    refine ⟨by omega, by omega, by omega, ?_⟩
    unfold atob at ih
    exact ih

/-- C8: the text-safe byte encoding helpers form an exact round trip: for every byte
sequence b (members < 256), `textToBytes (bytesToText b) = b`, i.e.
`base64ToUint8Array (arrayBufferToBase64 b) = b`. -/
theorem base64_helpers_roundtrip (b : List ℕ) (h : ∀ x ∈ b, x < 256) :
    base64ToUint8Array (arrayBufferToBase64 b) = b :=
  b64_roundtrip b h

/-- Witness for C8 at the concrete byte sequence `[0, 0, 255, 7, 61]`
(and note the empty and all-zero sequences are covered the same way). -/
theorem base64_helpers_roundtrip_witness :
    (∀ x ∈ ([0, 0, 255, 7, 61] : List ℕ), x < 256) ∧
      base64ToUint8Array (arrayBufferToBase64 [0, 0, 255, 7, 61]) = [0, 0, 255, 7, 61] :=
  ⟨by decide, base64_helpers_roundtrip [0, 0, 255, 7, 61] (by decide)⟩

/-! ## Downsampler: identity, length, iteration count -/

/-- C9: when the input and output rates are equal, `downsampleBuffer` returns the
input unchanged, for every sequence and every rate. -/
theorem downsample_identity (x : List ℚ) (r : ℚ) : downsampleBuffer x r r = x := by
  simp [downsampleBuffer]

theorem dsLoop_length (buffer : List ℚ) (r : ℚ) :
    ∀ (fuel j : ℕ) (off : ℤ), (dsLoop buffer r fuel j off).length = fuel
  | 0, _, _ => rfl
  | fuel + 1, j, off => by
    simp only [dsLoop, List.length_cons]
    rw [dsLoop_length buffer r fuel (j + 1)]

/-- C10: the main loop of `downsampleBuffer` terminates for every finite input and
rate pair, running exactly the precomputed number of iterations — from output index
`offsetResult` with `newLength - offsetResult` iterations left (the fuel), it emits
exactly one output sample per iteration, so the whole loop produces exactly
`newLength` samples. In this embedding the loop is total by construction; this
theorem states its exact iteration count. -/
theorem downsample_loop_iteration_count :
    ∀ (buffer : List ℚ) (r : ℚ) (fuel j : ℕ) (off : ℤ),
      (dsLoop buffer r fuel j off).length = fuel :=
  fun buffer r fuel j off => dsLoop_length buffer r fuel j off

/-! ## Downsampler: window closed form -/

theorem downsampleBuffer_same (x : List ℚ) (r : ℚ) : downsampleBuffer x r r = x := by
  simp [downsampleBuffer]

theorem windowStartI_eq (r : ℚ) (j : ℕ) : windowStartI r j = jsRound ((j : ℚ) * r) := by
  unfold windowStartI
  split
  next h => subst h; simp [jsRound]; norm_num
  next => rfl

theorem windowStartI_nonneg (r : ℚ) (hr : 0 < r) (j : ℕ) : 0 ≤ windowStartI r j := by
  rw [windowStartI_eq]
  unfold jsRound
  rw [Int.le_floor]
  have hjr : (0 : ℚ) ≤ (j : ℚ) * r := by positivity
  push_cast
  linarith

theorem accumLoop_spec (buffer : List ℚ) (hi : ℤ) :
    ∀ (fuel : ℕ) (i : ℤ) (a : ℚ) (c : ℕ), 0 ≤ i →
      fuel = (min hi (buffer.length : ℤ) - i).toNat →
      accumLoop buffer hi fuel i a c =
        (a + ((buffer.drop i.toNat).take fuel).sum, c + fuel)
  | 0, i, a, c, _, _ => by simp [accumLoop]
  | fuel + 1, i, a, c, hi0, hfuel => by
    have hlt : i < min hi (buffer.length : ℤ) := by omega
    have hiLen : i.toNat < buffer.length := by omega
    have ih := accumLoop_spec buffer hi fuel (i + 1) (a + buffer.getD i.toNat 0) (c + 1)
      (by omega) (by omega)
    rw [accumLoop, ih]
    have hdrop : buffer.drop i.toNat = buffer[i.toNat] :: buffer.drop (i.toNat + 1) :=
      List.drop_eq_getElem_cons hiLen
    have hit : (i + 1).toNat = i.toNat + 1 := by omega
    simp only [Prod.mk.injEq]
    refine ⟨?_, by omega⟩
    rw [hit, hdrop, List.take_succ_cons, List.sum_cons,
      List.getD_eq_getElem buffer 0 hiLen]
    ring

theorem dsLoop_get? (x : List ℚ) (r : ℚ) (hr : 0 < r) :
    ∀ (k fuel j : ℕ), k < fuel →
      (dsLoop x r fuel j (windowStartI r j)).get? k = some (outVal x r (j + k))
  | 0, fuel + 1, j, _ => by
    simp only [dsLoop, List.get?_cons_zero, Option.some.injEq, Nat.add_zero]
    have hac := accumLoop_spec x (jsRound (((j : ℚ) + 1) * r))
      ((min (jsRound (((j : ℚ) + 1) * r)) (x.length : ℤ) - windowStartI r j).toNat)
      (windowStartI r j) 0 0 (windowStartI_nonneg r hr j) rfl
    have hwl : windowList x r j =
        (x.drop (windowStartI r j).toNat).take
          ((min (jsRound (((j : ℚ) + 1) * r)) (x.length : ℤ) - windowStartI r j).toNat) := rfl
    have hlen : (windowList x r j).length =
        (min (jsRound (((j : ℚ) + 1) * r)) (x.length : ℤ) - windowStartI r j).toNat := by
      rw [hwl, List.length_take, List.length_drop]
      have h0 := windowStartI_nonneg r hr j
      omega
    rw [hac]
    dsimp only
    simp only [zero_add]
    rw [← hwl, ← hlen]
    unfold outVal
    rfl
  | k + 1, fuel + 1, j, hk => by
    simp only [dsLoop, List.get?_cons_succ]
    have hnext : jsRound (((j : ℚ) + 1) * r) = windowStartI r (j + 1) := by
      rw [windowStartI_eq]
      push_cast
      ring_nf
    rw [hnext]
    have hind : j + (k + 1) = j + 1 + k := by omega
    rw [hind]
    exact dsLoop_get? x r hr k fuel (j + 1) (by omega)

theorem downsample_get? (x : List ℚ) (inputRate outputRate : ℚ)
    (h1 : 0 < inputRate) (h2 : 0 < outputRate) (hne : inputRate ≠ outputRate)
    (j : ℕ) (hj : j < (downsampleBuffer x inputRate outputRate).length) :
    (downsampleBuffer x inputRate outputRate).get? j =
      some (outVal x (inputRate / outputRate) j) := by
  have hr : 0 < inputRate / outputRate := div_pos h1 h2
  unfold downsampleBuffer at hj ⊢
  rw [if_neg hne] at hj ⊢
  rw [dsLoop_length] at hj
  have h0 : windowStartI (inputRate / outputRate) 0 = 0 := rfl
  have := dsLoop_get? x (inputRate / outputRate) hr j _ 0 hj
  rw [h0] at this
  simpa using this

/-- C5: the length of the downsampled output equals
`Math.round(inputLength / (inputRate / outputRate))` for every input sequence and
every pair of positive rates (the equal-rate identity branch included). -/
theorem downsample_length_law (x : List ℚ) (inputRate outputRate : ℚ)
    (h1 : 0 < inputRate) (h2 : 0 < outputRate) :
    ((downsampleBuffer x inputRate outputRate).length : ℤ) =
      jsRound ((x.length : ℚ) / (inputRate / outputRate)) := by
  unfold downsampleBuffer
  split
  next heq =>
    have hones : inputRate / outputRate = 1 := by
      rw [heq]
      field_simp
    rw [hones, div_one]
    unfold jsRound
    rw [eq_comm, Int.floor_eq_iff]
    constructor
    · push_cast
      linarith
    · push_cast
      linarith
  next =>
    rw [dsLoop_length]
    have hnn : 0 ≤ jsRound ((x.length : ℚ) / (inputRate / outputRate)) := by
      unfold jsRound
      rw [Int.le_floor]
      have : (0 : ℚ) ≤ (x.length : ℚ) / (inputRate / outputRate) := by positivity
      push_cast
      linarith
    omega

/-- Witness for C5 at the non-integer ratio 44100 to 16000 on an 11-sample input
(where the rounded length is 4). -/
theorem downsample_length_law_witness :
    (0 : ℚ) < 44100 ∧ (0 : ℚ) < 16000 ∧
      ((downsampleBuffer (List.replicate 11 (0 : ℚ)) 44100 16000).length : ℤ) =
        jsRound (((List.replicate 11 (0 : ℚ)).length : ℚ) / (44100 / 16000)) :=
  ⟨by norm_num, by norm_num,
    downsample_length_law (List.replicate 11 (0 : ℚ)) 44100 16000 (by norm_num) (by norm_num)⟩

theorem windowList_eq_spec (x : List ℚ) (r : ℚ) (hr : 0 < r) (j : ℕ) :
    windowList x r j =
      (x.drop (min (windowStartI r j).toNat x.length)).take
        (min (jsRound (((j : ℚ) + 1) * r)).toNat x.length -
          min (windowStartI r j).toNat x.length) := by
  have hs0 := windowStartI_nonneg r hr j
  have hhi : 0 ≤ jsRound (((j : ℚ) + 1) * r) := by
    unfold jsRound
    rw [Int.le_floor]
    have : (0 : ℚ) ≤ ((j : ℚ) + 1) * r := by positivity
    push_cast
    linarith
  unfold windowList
  rcases le_or_lt (windowStartI r j).toNat x.length with hle | hgt
  · rw [min_eq_left hle]
    congr 1
    omega
  · rw [min_eq_right (le_of_lt hgt)]
    rw [List.drop_eq_nil_of_le (le_of_lt hgt), List.drop_eq_nil_of_le (le_refl x.length)]
    simp

theorem ite_mean_comm (S : ℚ) (L : ℕ) :
    (if 0 < L then S / (L : ℚ) else 0) = if L = 0 then 0 else S / (L : ℚ) := by
  rcases Nat.eq_zero_or_pos L with h | h
  · simp [h]
  · simp [h, h.ne']

/-- C6: when the rates differ, the j-th output sample is the arithmetic mean of the
input window that starts at the end of the previous window (initially 0) and ends at
`Math.round((j+1) * ratio)` clamped to the input length, and is 0 when that window
is empty. -/
theorem downsample_window_semantics (x : List ℚ) (inputRate outputRate : ℚ)
    (h1 : 0 < inputRate) (h2 : 0 < outputRate) (hne : inputRate ≠ outputRate)
    (j : ℕ) (hj : j < (downsampleBuffer x inputRate outputRate).length) :
    (downsampleBuffer x inputRate outputRate).get? j =
      some
        (let ratio := inputRate / outputRate
         let wEnd := min (jsRound (((j : ℚ) + 1) * ratio)).toNat x.length
         let wStart := if j = 0 then 0 else min (jsRound ((j : ℚ) * ratio)).toNat x.length
         let w := (x.drop wStart).take (wEnd - wStart)
         if w.length = 0 then 0 else w.sum / (w.length : ℚ)) := by
  rw [downsample_get? x inputRate outputRate h1 h2 hne j hj]
  congr 1
  have hr : 0 < inputRate / outputRate := div_pos h1 h2
  unfold outVal
  rw [windowList_eq_spec x _ hr j]
  have hstart : min (windowStartI (inputRate / outputRate) j).toNat x.length =
      if j = 0 then 0
      else min (jsRound ((j : ℚ) * (inputRate / outputRate))).toNat x.length := by
    unfold windowStartI
    split
    · simp
    · rfl
  rw [hstart]
  dsimp only
  exact ite_mean_comm _ _

/-- Witness for C6: input [1, 2, 3, 4] at 32000 to 16000 (ratio 2), output index 1:
the window is the samples at indices 2 and 3 and the output is their mean 7/2. -/
theorem downsample_window_semantics_witness :
    (0 : ℚ) < 32000 ∧ (0 : ℚ) < 16000 ∧ (32000 : ℚ) ≠ 16000 ∧
      1 < (downsampleBuffer [1, 2, 3, 4] 32000 16000).length ∧
      (downsampleBuffer [1, 2, 3, 4] 32000 16000).get? 1 = some (7 / 2) := by
  have hlen : (downsampleBuffer ([1, 2, 3, 4] : List ℚ) 32000 16000).length = 2 := by
    unfold downsampleBuffer
    rw [if_neg (by norm_num), dsLoop_length]
    norm_num [jsRound]
    rfl
  have hj : 1 < (downsampleBuffer ([1, 2, 3, 4] : List ℚ) 32000 16000).length := by omega
  refine ⟨by norm_num, by norm_num, by norm_num, hj, ?_⟩
  have h := downsample_window_semantics [1, 2, 3, 4] 32000 16000 (by norm_num) (by norm_num)
    (by norm_num) 1 hj
  rw [h]
  norm_num [jsRound, List.take, List.drop]

theorem downsample_window_pos (x : List ℚ) (r : ℚ) (hr : 1 < r) (j : ℕ)
    (hj : j < (jsRound ((x.length : ℚ) / r)).toNat) :
    0 < (windowList x r j).length := by
  have hr0 : (0 : ℚ) < r := by linarith
  have hs := windowStartI_nonneg r hr0 j
  have hseq := windowStartI_eq r j
  have h1 : windowStartI r j < jsRound (((j : ℚ) + 1) * r) := by
    rw [hseq]
    unfold jsRound
    have hmono : ((j : ℚ) * r + 1 / 2) + 1 ≤ ((j : ℚ) + 1) * r + 1 / 2 := by nlinarith
    have hstep : ⌊(j : ℚ) * r + 1 / 2 + 1⌋ = ⌊(j : ℚ) * r + 1 / 2⌋ + 1 := by
      exact_mod_cast Int.floor_add_int ((j : ℚ) * r + 1 / 2) 1
    have := Int.floor_le_floor hmono
    omega
  have h2 : windowStartI r j < (x.length : ℤ) := by
    rw [hseq]
    unfold jsRound
    rw [Int.floor_lt]
    have hjZ : (j : ℤ) < jsRound ((x.length : ℚ) / r) := by
      unfold jsRound at hj ⊢
      omega
    have hjQ : ((j : ℚ) + 1) ≤ (x.length : ℚ) / r + 1 / 2 := by
      unfold jsRound at hjZ
      have hle := Int.le_floor.mp (by omega : (j : ℤ) + 1 ≤ ⌊(x.length : ℚ) / r + 1 / 2⌋)
      push_cast at hle ⊢
      linarith
    have hmul : (j : ℚ) * r ≤ ((x.length : ℚ) / r - 1 / 2) * r := by
      apply mul_le_mul_of_nonneg_right _ (le_of_lt hr0)
      linarith
    have hexp : ((x.length : ℚ) / r - 1 / 2) * r = (x.length : ℚ) - r / 2 := by
      field_simp
      ring
    push_cast
    nlinarith
  unfold windowList
  rw [List.length_take, List.length_drop]
  omega

theorem outVal_replicate (m : ℕ) (k r : ℚ) (j : ℕ)
    (h : 0 < (windowList (List.replicate m k) r j).length) :
    outVal (List.replicate m k) r j = k := by
  obtain ⟨n, hn⟩ : ∃ n, windowList (List.replicate m k) r j = List.replicate n k :=
    ⟨_, by unfold windowList; rw [List.drop_replicate, List.take_replicate]⟩
  unfold outVal
  rw [hn] at h ⊢
  simp only [List.length_replicate] at h ⊢
  rw [if_pos h, List.sum_replicate, nsmul_eq_mul]
  have hn0 : (n : ℚ) ≠ 0 := by
    exact_mod_cast h.ne'
  exact mul_div_cancel_left₀ k hn0

/-- C7 amended: for a constant-value input and any rate pair with
`outputRate ≤ inputRate` (both positive), every output sample of `downsampleBuffer`
equals that constant. (For upsampling pairs, `inputRate < outputRate`, an empty
window can occur and yields 0 instead; see the counterexample.) -/
theorem downsample_constant_amended (m : ℕ) (k : ℚ) (inputRate outputRate : ℚ)
    (h2 : 0 < outputRate) (hge : outputRate ≤ inputRate) :
    ∀ y ∈ downsampleBuffer (List.replicate m k) inputRate outputRate, y = k := by
  intro y hy
  by_cases heq : inputRate = outputRate
  · unfold downsampleBuffer at hy
    rw [if_pos heq] at hy
    exact List.eq_of_mem_replicate hy
  · have h1 : 0 < inputRate := lt_of_lt_of_le h2 hge
    have hlt : outputRate < inputRate := lt_of_le_of_ne hge (Ne.symm heq)
    have hrgt : 1 < inputRate / outputRate := (one_lt_div h2).mpr hlt
    rw [List.mem_iff_get?] at hy
    obtain ⟨j, hj⟩ := hy
    have hjlen : j < (downsampleBuffer (List.replicate m k) inputRate outputRate).length := by
      rcases List.get?_eq_some.mp hj with ⟨h, _⟩
      exact h
    rw [downsample_get? _ _ _ h1 h2 heq j hjlen] at hj
    have hNlen : (downsampleBuffer (List.replicate m k) inputRate outputRate).length =
        (jsRound (((List.replicate m k).length : ℚ) / (inputRate / outputRate))).toNat := by
      unfold downsampleBuffer
      rw [if_neg heq, dsLoop_length]
    have hpos := downsample_window_pos (List.replicate m k) (inputRate / outputRate) hrgt j
      (by rw [← hNlen]; exact hjlen)
    rw [outVal_replicate m k (inputRate / outputRate) j hpos] at hj
    exact (Option.some.inj hj).symm

/-- Counterexample to C7 as stated: for the constant input [1] and the rate pair
8000 to 16000 the output is [1, 0] — the second output sample is 0, not the
constant 1, because its averaging window is empty. -/
theorem downsample_constant_counterexample :
    downsampleBuffer (List.replicate 1 (1 : ℚ)) 8000 16000 = [1, 0] ∧ (0 : ℚ) ≠ 1 := by
  constructor
  · norm_num [downsampleBuffer, dsLoop, accumLoop, jsRound, List.getD, List.replicate]
  · norm_num

/-- Witness for the amended C7: the first output sample of downsampling the constant
sequence of four 5s from 32000 to 16000 equals 5. -/
theorem downsample_constant_amended_witness :
    (0 : ℚ) < 16000 ∧ (16000 : ℚ) ≤ 32000 ∧
      (downsampleBuffer (List.replicate 4 (5 : ℚ)) 32000 16000).headD 0 = 5 := by
  refine ⟨by norm_num, by norm_num, ?_⟩
  have hlen2 : (downsampleBuffer (List.replicate 4 (5 : ℚ)) 32000 16000).length = 2 := by
    unfold downsampleBuffer
    rw [if_neg (by norm_num), dsLoop_length]
    norm_num [jsRound]
    rfl
  rcases hl : downsampleBuffer (List.replicate 4 (5 : ℚ)) 32000 16000 with _ | ⟨a, t⟩
  · rw [hl] at hlen2
    simp at hlen2
  · have ha : a ∈ downsampleBuffer (List.replicate 4 (5 : ℚ)) 32000 16000 := by
      rw [hl]
      exact List.mem_cons_self a t
    have hak := downsample_constant_amended 4 5 32000 16000 (by norm_num) (by norm_num) a ha
    simpa using hak

/-! ## Quantization and decoding -/

theorem toInt16_of_range (q : ℚ) (h1 : -32768 ≤ ratTrunc q) (h2 : ratTrunc q ≤ 32767) :
    toInt16 q = ratTrunc q := by
  unfold toInt16
  dsimp only
  split <;> omega

theorem quantizeSample_eq (s : ℚ) (h1 : -1 ≤ s) (h2 : s ≤ 1) :
    quantizeSample s = if s < 0 then ⌈s * 32768⌉ else ⌊s * 32767⌋ := by
  have hc : max (-1) (min 1 s) = s := by
    rw [min_eq_right h2, max_eq_right h1]
  have hq : quantizeSample s =
      if s < 0 then toInt16 (s * 32768) else toInt16 (s * 32767) := by
    unfold quantizeSample
    rw [hc]
  rw [hq]
  by_cases hneg : s < 0
  · rw [if_pos hneg, if_pos hneg]
    have htr : ratTrunc (s * 32768) = ⌈s * 32768⌉ := by
      unfold ratTrunc
      rw [if_neg (by nlinarith)]
    have hlb : -32768 ≤ ⌈s * 32768⌉ := by
      have hm := Int.ceil_le_ceil (show ((-32768 : ℤ) : ℚ) ≤ s * 32768 by push_cast; nlinarith)
      rwa [Int.ceil_intCast] at hm
    have hub : ⌈s * 32768⌉ ≤ 0 := Int.ceil_le.mpr (by push_cast; nlinarith)
    rw [toInt16_of_range _ (by rw [htr]; omega) (by rw [htr]; omega), htr]
  · rw [if_neg hneg, if_neg hneg]
    have hge : 0 ≤ s := not_lt.mp hneg
    have hs0 : 0 ≤ s * 32767 := by positivity
    have htr : ratTrunc (s * 32767) = ⌊s * 32767⌋ := by
      unfold ratTrunc
      rw [if_pos hs0]
    have hlb : 0 ≤ ⌊s * 32767⌋ := Int.le_floor.mpr (by push_cast; linarith)
    have hub : ⌊s * 32767⌋ ≤ 32767 := by
      have hm := Int.floor_le_floor (show s * 32767 ≤ ((32767 : ℤ) : ℚ) by push_cast; nlinarith)
      rwa [Int.floor_intCast] at hm
    rw [toInt16_of_range _ (by rw [htr]; omega) (by rw [htr]; omega), htr]

theorem quantizeSample_mem (s : ℚ) (h1 : -1 ≤ s) (h2 : s ≤ 1) :
    -32768 ≤ quantizeSample s ∧ quantizeSample s ≤ 32767 := by
  rw [quantizeSample_eq s h1 h2]
  by_cases hneg : s < 0
  · rw [if_pos hneg]
    have hlb : -32768 ≤ ⌈s * 32768⌉ := by
      have hm := Int.ceil_le_ceil (show ((-32768 : ℤ) : ℚ) ≤ s * 32768 by push_cast; nlinarith)
      rwa [Int.ceil_intCast] at hm
    have hub : ⌈s * 32768⌉ ≤ 0 := Int.ceil_le.mpr (by push_cast; nlinarith)
    omega
  · rw [if_neg hneg]
    have hge : 0 ≤ s := not_lt.mp hneg
    have hlb : 0 ≤ ⌊s * 32767⌋ := Int.le_floor.mpr (by push_cast; positivity)
    have hub : ⌊s * 32767⌋ ≤ 32767 := by
      have hm := Int.floor_le_floor (show s * 32767 ≤ ((32767 : ℤ) : ℚ) by push_cast; nlinarith)
      rwa [Int.floor_intCast] at hm
    omega

/-- C4: the encoder's quantization step clamps each sample to [-1, 1] and applies
the asymmetric scale: 1.5 encodes like 1.0 to 32767, -1.5 encodes like -1.0 to
-32768, 0.0 encodes to 0; the full `createPcmBlob` pipeline likewise produces
identical blobs for the clamped pairs. -/
theorem encoder_clamp_asymmetric_scale :
    quantizeSample (3 / 2) = 32767 ∧ quantizeSample 1 = 32767 ∧
      quantizeSample (-(3 / 2)) = -32768 ∧ quantizeSample (-1) = -32768 ∧
      quantizeSample 0 = 0 ∧
      (∀ x : ℚ, quantizeSample x = quantizeSample (max (-1) (min 1 x))) ∧
      createPcmBlob [3 / 2] 16000 = createPcmBlob [1] 16000 ∧
      createPcmBlob [-(3 / 2)] 16000 = createPcmBlob [-1] 16000 := by
  have q0 : quantizeSample (3 / 2) = 32767 := by
    norm_num [quantizeSample, toInt16, ratTrunc, max_def, min_def]
  have q1 : quantizeSample 1 = 32767 := by
    norm_num [quantizeSample, toInt16, ratTrunc, max_def, min_def]
  have hcm : (⌈(-32768 : ℚ)⌉ : ℤ) = -32768 := by
    rw [show (-32768 : ℚ) = ((-32768 : ℤ) : ℚ) by norm_num, Int.ceil_intCast]
  have q2 : quantizeSample (-(3 / 2)) = -32768 := by
    norm_num [quantizeSample, toInt16, ratTrunc, max_def, min_def]
    rw [hcm]
    decide
  have q3 : quantizeSample (-1) = -32768 := by
    norm_num [quantizeSample, toInt16, ratTrunc, max_def, min_def]
    rw [hcm]
    decide
  have q4 : quantizeSample 0 = 0 := by
    norm_num [quantizeSample, toInt16, ratTrunc, max_def, min_def]
  have hid : ∀ x : ℚ, quantizeSample x = quantizeSample (max (-1) (min 1 x)) := by
    intro x
    unfold quantizeSample
    dsimp only
    have hmin : min 1 (max (-1) (min 1 x)) = max (-1) (min 1 x) :=
      min_eq_right (max_le (by norm_num) (min_le_left 1 x))
    have hmax : max (-1) (max (-1) (min 1 x)) = max (-1) (min 1 x) :=
      max_eq_right (le_max_left (-1) (min 1 x))
    rw [hmin, hmax]
  have hpair : ∀ a b : ℚ, quantizeSample a = quantizeSample b →
      createPcmBlob [a] 16000 = createPcmBlob [b] 16000 := by
    intro a b hab
    unfold createPcmBlob
    rw [downsampleBuffer_same, downsampleBuffer_same]
    simp only [List.map_cons, List.map_nil, hab]
  exact ⟨q0, q1, q2, q3, q4, hid, hpair _ _ (by rw [q0, q1]), hpair _ _ (by rw [q2, q3])⟩

theorem int16ToBytes_lt (v : ℤ) : ∀ x ∈ int16ToBytes v, x < 256 := by
  unfold int16ToBytes
  intro x hx
  simp only [List.mem_cons, List.not_mem_nil, or_false] at hx
  have hu : (v % 65536).toNat < 65536 := by omega
  rcases hx with h | h <;> omega

theorem bytesToInt16List_int16ToBytes (v : ℤ) (h1 : -32768 ≤ v) (h2 : v ≤ 32767) :
    bytesToInt16List (int16ToBytes v) = [v] := by
  unfold int16ToBytes
  dsimp only
  simp only [bytesToInt16List]
  simp only [List.cons.injEq, and_true]
  split <;> omega

theorem decodeAudioData_int16 (v : ℤ) (h1 : -32768 ≤ v) (h2 : v ≤ 32767) :
    decodeAudioData (int16ToBytes v) 16000 1 =
      Except.ok ⟨1, 1, 16000, [[(v : ℚ) / 32768]]⟩ := by
  have hb := bytesToInt16List_int16ToBytes v h1 h2
  have hlen : (int16ToBytes v).length = 2 := rfl
  unfold decodeAudioData
  rw [if_neg (by rw [hlen]; norm_num)]
  rw [hb]
  norm_num [toUint32, ratTrunc, createBuffer, fillChannel, List.getD]
  simp [List.range_succ]

theorem encodeDecodeFirst_eq (s : ℚ) (h1 : -1 ≤ s) (h2 : s ≤ 1) :
    encodeDecodeFirst s = some ((quantizeSample s : ℚ) / 32768) := by
  obtain ⟨hm1, hm2⟩ := quantizeSample_mem s h1 h2
  unfold encodeDecodeFirst createPcmBlob base64ToUint8Array arrayBufferToBase64
  rw [downsampleBuffer_same]
  simp only [List.map_cons, List.map_nil]
  rw [show ([int16ToBytes (quantizeSample s)].flatten) = int16ToBytes (quantizeSample s) by simp]
  rw [b64_roundtrip _ (int16ToBytes_lt _)]
  rw [decodeAudioData_int16 _ hm1 hm2]
  rfl

/-- C1 amended: for every sample s in [-1, 1], decode(encode([s]))[0] (encoding at
rate 16000 so downsampling is the identity, decoding at 16000 Hz mono) is within
2/32768 of s — within 1/32768 when s ≤ 0, but the positive branch scales by 32767
while decode divides by 32768, so for s > 0 the error can exceed 1/32768 and is only
bounded by 2/32768 — and the sign is preserved outside the rounding neighborhood of
0: the result is positive when s ≥ 1/32767, negative when s ≤ -1/32768, and zero at
s = 0. -/
theorem roundtrip_first_sample (s : ℚ) (h1 : -1 ≤ s) (h2 : s ≤ 1) :
    ∃ y, encodeDecodeFirst s = some y ∧ |y - s| < 2 / 32768 ∧
      (s ≤ 0 → |y - s| < 1 / 32768) ∧
      (1 / 32767 ≤ s → 0 < y) ∧ (s ≤ -(1 / 32768) → y < 0) ∧ (s = 0 → y = 0) := by
  refine ⟨(quantizeSample s : ℚ) / 32768, encodeDecodeFirst_eq s h1 h2, ?_⟩
  rw [quantizeSample_eq s h1 h2]
  by_cases hneg : s < 0
  · rw [if_pos hneg]
    have hc1 : s * 32768 ≤ (⌈s * 32768⌉ : ℚ) := Int.le_ceil _
    have hc2 : (⌈s * 32768⌉ : ℚ) < s * 32768 + 1 := Int.ceil_lt_add_one _
    refine ⟨?_, fun _ => ?_, fun hp => ?_, fun hn => ?_, fun h0 => ?_⟩
    · rw [abs_lt]
      constructor <;> nlinarith
    · rw [abs_lt]
      constructor <;> nlinarith
    · linarith
    · have hle : ⌈s * 32768⌉ ≤ -1 := by
        rw [show (-1 : ℤ) = ⌈(-1 : ℚ)⌉ by rw [show (-1 : ℚ) = ((-1 : ℤ) : ℚ) by norm_num, Int.ceil_intCast]]
        exact Int.ceil_le_ceil (by nlinarith)
      have : (⌈s * 32768⌉ : ℚ) ≤ -1 := by exact_mod_cast hle
      nlinarith
    · exact absurd h0 (by linarith)
  · rw [if_neg hneg]
    have hge : 0 ≤ s := not_lt.mp hneg
    have hf1 : (⌊s * 32767⌋ : ℚ) ≤ s * 32767 := Int.floor_le _
    have hf2 : s * 32767 - 1 < (⌊s * 32767⌋ : ℚ) := Int.sub_one_lt_floor _
    refine ⟨?_, fun hle0 => ?_, fun hp => ?_, fun hn => ?_, fun h0 => ?_⟩
    · rw [abs_lt]
      constructor <;> nlinarith
    · have hs0 : s = 0 := le_antisymm hle0 hge
      subst hs0
      norm_num
    · have hge1 : 1 ≤ ⌊s * 32767⌋ := Int.le_floor.mpr (by push_cast; nlinarith)
      have : (1 : ℚ) ≤ (⌊s * 32767⌋ : ℚ) := by exact_mod_cast hge1
      nlinarith
    · exact absurd hn (by push_neg; nlinarith)
    · subst h0
      norm_num

/-- Witness for the amended C1 at s = 1/2. -/
theorem roundtrip_first_sample_witness :
    (-1 : ℚ) ≤ 1 / 2 ∧ (1 / 2 : ℚ) ≤ 1 ∧
      (∃ y, encodeDecodeFirst (1 / 2) = some y ∧ |y - 1 / 2| < 2 / 32768 ∧
        ((1 / 2 : ℚ) ≤ 0 → |y - 1 / 2| < 1 / 32768) ∧
        (1 / 32767 ≤ (1 / 2 : ℚ) → 0 < y) ∧ ((1 / 2 : ℚ) ≤ -(1 / 32768) → y < 0) ∧
        ((1 / 2 : ℚ) = 0 → y = 0)) :=
  ⟨by norm_num, by norm_num, roundtrip_first_sample (1 / 2) (by norm_num) (by norm_num)⟩

/-- Counterexample to C1 as stated: at s = 65533/65534 the encoder truncates
32767 * s = 32766.5 to 32766 and the decoder returns 32766/32768, which differs from
s by more than 1/32768 (the error is 49150/(32767 * 32768), about 1.5/32768). -/
theorem roundtrip_first_sample_counterexample :
    encodeDecodeFirst (65533 / 65534) = some (32766 / 32768) ∧
      ¬ |(32766 : ℚ) / 32768 - 65533 / 65534| ≤ 1 / 32768 := by
  constructor
  · rw [encodeDecodeFirst_eq (65533 / 65534) (by norm_num) (by norm_num),
      quantizeSample_eq (65533 / 65534) (by norm_num) (by norm_num)]
    rw [if_neg (by norm_num)]
    have hv : ⌊(65533 : ℚ) / 65534 * 32767⌋ = 32766 := by
      rw [show (65533 : ℚ) / 65534 * 32767 = 65533 / 2 by norm_num]
      norm_num
    rw [hv]
    norm_num
  · rw [abs_of_nonpos (by norm_num)]
    norm_num

theorem bytesToInt16List_length : ∀ (l : List ℕ), (bytesToInt16List l).length = l.length / 2
  | [] => rfl
  | [_] => by simp [bytesToInt16List]
  | _ :: _ :: rest => by
    simp only [bytesToInt16List, List.length_cons]
    rw [bytesToInt16List_length rest]
    omega

theorem fillChannel_length (d : List ℤ) (c ch : ℕ) :
    ∀ (fuel i : ℕ) (l : List ℚ), (fillChannel d c ch fuel i l).length = l.length
  | 0, _, _ => rfl
  | fuel + 1, i, l => by
    simp only [fillChannel]
    rw [fillChannel_length d c ch fuel (i + 1)]
    exact List.length_set ..

theorem toUint32_natDiv (n c : ℕ) (hc : 0 < c) (hlt : n / c < 2 ^ 32) :
    toUint32 ((n : ℚ) / (c : ℚ)) = n / c := by
  unfold toUint32 ratTrunc
  rw [if_pos (by positivity)]
  have hf : ⌊(n : ℚ) / (c : ℚ)⌋ = ((n / c : ℕ) : ℤ) := by
    rw [Int.floor_eq_iff]
    constructor
    · rw [le_div_iff₀ (by exact_mod_cast hc)]
      push_cast
      exact_mod_cast Nat.cast_le.mpr (Nat.div_mul_le_self n c)
    · rw [div_lt_iff₀ (by exact_mod_cast hc)]
      have hb : n < (n / c + 1) * c := by
        have h1 := Nat.mod_lt n hc
        have h2 := Nat.div_add_mod n c
        nlinarith
      push_cast
      exact_mod_cast hb
  have h0 : (0 : ℤ) ≤ ((n / c : ℕ) : ℤ) := by positivity
  have hlt2 : ((n / c : ℕ) : ℤ) < 2 ^ 32 := by exact_mod_cast hlt
  rw [hf, Int.emod_eq_of_lt h0 hlt2]
  omega

theorem toUint32_zero_den (n : ℕ) : toUint32 ((n : ℚ) / ((0 : ℕ) : ℚ)) = 0 := by
  norm_num [toUint32, ratTrunc]

theorem decodeAudioData_ok_shape (data : List ℕ) (rate : ℚ) (c : ℕ)
    (heven : data.length % 2 = 0) (hc : 0 < c) (hc32 : c ≤ 32)
    (hpos : 0 < data.length / 2 / c) (hlim : data.length / 2 / c < 2 ^ 32)
    (hr1 : 8000 ≤ rate) (hr2 : rate ≤ 96000) :
    ∃ buf, decodeAudioData data rate c = Except.ok buf ∧
      buf.length = data.length / 2 / c ∧ buf.numberOfChannels = c ∧
      buf.channels.length = c ∧
      ∀ ch ∈ buf.channels, ch.length = data.length / 2 / c := by
  unfold decodeAudioData
  rw [if_neg (by omega)]
  dsimp only
  rw [bytesToInt16List_length data, toUint32_natDiv (data.length / 2) c hc hlim]
  rw [createBuffer, if_neg (by push_neg; exact ⟨hc.ne', hc32, hpos.ne', hr1, hr2⟩)]
  refine ⟨_, rfl, rfl, rfl, by simp, ?_⟩
  intro ch hch
  simp only [List.mem_map] at hch
  obtain ⟨i, _, hico⟩ := hch
  rw [← hico, fillChannel_length, List.length_replicate]

theorem decodeAudioData_error_shape (data : List ℕ) (rate : ℚ) (c : ℕ)
    (heven : data.length % 2 = 0) (hlim : data.length / 2 / c < 2 ^ 32)
    (hbad : c = 0 ∨ 32 < c ∨ data.length / 2 / c = 0 ∨ rate < 8000 ∨ 96000 < rate) :
    decodeAudioData data rate c = Except.error DecodeError.notSupported := by
  unfold decodeAudioData
  rw [if_neg (by omega)]
  dsimp only
  rw [bytesToInt16List_length data]
  rcases Nat.eq_zero_or_pos c with hc0 | hcpos
  · subst hc0
    rw [toUint32_zero_den]
    rw [createBuffer, if_pos (Or.inl rfl)]
  · rw [toUint32_natDiv (data.length / 2) c hcpos hlim]
    rw [createBuffer, if_pos hbad]

/-- C2 amended: for every even-length byte sequence whose 16-bit sample count is not
a multiple of numChannels, provided the decode can succeed at all (a positive channel
count within the platform limit 32, a nonzero truncated frame count within the
32-bit range, and a sample rate within the Web Audio nominal range [8000, 96000]),
`decodeAudioData` drops the trailing incomplete frame and produces exactly
floor(sampleCount / numChannels) frames per channel. (When the truncated frame count
is 0 the platform buffer constructor rejects the zero length and the decode errors
instead; see the counterexample.) -/
theorem decode_truncation_policy (data : List ℕ) (rate : ℚ) (c : ℕ)
    (heven : data.length % 2 = 0) (hc : 0 < c) (hc32 : c ≤ 32)
    (_hnd : ¬ (c ∣ data.length / 2)) (hpos : 0 < data.length / 2 / c)
    (hlim : data.length / 2 / c < 2 ^ 32)
    (hr1 : 8000 ≤ rate) (hr2 : rate ≤ 96000) :
    ∃ buf, decodeAudioData data rate c = Except.ok buf ∧
      buf.length = data.length / 2 / c ∧
      ∀ ch ∈ buf.channels, ch.length = data.length / 2 / c := by
  obtain ⟨buf, h1, h2, _, _, h5⟩ :=
    decodeAudioData_ok_shape data rate c heven hc hc32 hpos hlim hr1 hr2
  exact ⟨buf, h1, h2, h5⟩

/-- Witness for the amended C2: six bytes (three 16-bit samples) decoded with two
channels produce exactly one frame per channel, the trailing sample dropped. -/
theorem decode_truncation_policy_witness :
    (List.replicate 6 (0 : ℕ)).length % 2 = 0 ∧ 0 < 2 ∧ 2 ≤ 32 ∧
      ¬ (2 ∣ (List.replicate 6 (0 : ℕ)).length / 2) ∧
      0 < (List.replicate 6 (0 : ℕ)).length / 2 / 2 ∧
      (List.replicate 6 (0 : ℕ)).length / 2 / 2 < 2 ^ 32 ∧
      (8000 : ℚ) ≤ 24000 ∧ (24000 : ℚ) ≤ 96000 ∧
      (∃ buf, decodeAudioData (List.replicate 6 (0 : ℕ)) 24000 2 = Except.ok buf ∧
        buf.length = (List.replicate 6 (0 : ℕ)).length / 2 / 2 ∧
        ∀ ch ∈ buf.channels, ch.length = (List.replicate 6 (0 : ℕ)).length / 2 / 2) :=
  ⟨by decide, by decide, by decide, by decide, by decide, by norm_num, by norm_num,
    by norm_num,
    decode_truncation_policy (List.replicate 6 (0 : ℕ)) 24000 2 (by decide) (by decide)
      (by decide) (by decide) (by decide) (by norm_num) (by norm_num) (by norm_num)⟩

/-- Counterexample to C2 as stated: two bytes (one 16-bit sample) decoded with
numChannels = 2 have a sample count that is not a multiple of the channel count, but
instead of producing floor(1/2) = 0 frames per channel the decode errors: the
platform buffer constructor rejects a zero frame length. -/
theorem decode_truncation_counterexample :
    decodeAudioData [0, 0] 24000 2 = Except.error DecodeError.notSupported := by
  norm_num [decodeAudioData, bytesToInt16List, toUint32, ratTrunc, createBuffer]

/-- C3 amended: `decodeAudioData` fails in exactly three ways — an odd byte length
fails with a `RangeError` from the 16-bit view construction (before and independent
of buffer allocation); the platform buffer constructor rejects a channel count
outside [1, 32] or a zero truncated frame count; and it likewise rejects a sample
rate outside the Web Audio nominal range [8000, 96000] (in particular zero or
negative rates). It succeeds exactly on even-length byte sequences with a channel
count in [1, 32], a nonzero truncated frame count (within the 32-bit range), and an
in-range sample rate. On any failure no buffer at all is produced (the error carries
no partial result). -/
theorem decode_failure_conditions (data : List ℕ) (rate : ℚ) (c : ℕ)
    (hlim : data.length / 2 / c < 2 ^ 32) :
    ((∃ buf, decodeAudioData data rate c = Except.ok buf) ↔
      data.length % 2 = 0 ∧ 0 < c ∧ c ≤ 32 ∧ 0 < data.length / 2 / c ∧
        8000 ≤ rate ∧ rate ≤ 96000) ∧
    (data.length % 2 ≠ 0 → decodeAudioData data rate c = Except.error DecodeError.rangeError) := by
  by_cases heven : data.length % 2 = 0
  · refine ⟨⟨?_, ?_⟩, fun h => absurd heven h⟩
    · rintro ⟨buf, hbuf⟩
      refine ⟨heven, ?_, ?_, ?_, ?_, ?_⟩
      · by_contra hcon
        rw [decodeAudioData_error_shape data rate c heven hlim
          (Or.inl (Nat.le_zero.mp (not_lt.mp hcon)))] at hbuf
        exact Except.noConfusion hbuf
      · by_contra hcon
        rw [decodeAudioData_error_shape data rate c heven hlim
          (Or.inr (Or.inl (not_le.mp hcon)))] at hbuf
        exact Except.noConfusion hbuf
      · by_contra hcon
        rw [decodeAudioData_error_shape data rate c heven hlim
          (Or.inr (Or.inr (Or.inl (Nat.le_zero.mp (not_lt.mp hcon)))))] at hbuf
        exact Except.noConfusion hbuf
      · by_contra hcon
        rw [decodeAudioData_error_shape data rate c heven hlim
          (Or.inr (Or.inr (Or.inr (Or.inl (not_le.mp hcon)))))] at hbuf
        exact Except.noConfusion hbuf
      · by_contra hcon
        rw [decodeAudioData_error_shape data rate c heven hlim
          (Or.inr (Or.inr (Or.inr (Or.inr (not_le.mp hcon)))))] at hbuf
        exact Except.noConfusion hbuf
    · rintro ⟨_, hc, hc32, hpos, hr1, hr2⟩
      obtain ⟨buf, h1, _⟩ :=
        decodeAudioData_ok_shape data rate c heven hc hc32 hpos hlim hr1 hr2
      exact ⟨buf, h1⟩
  · have herr : decodeAudioData data rate c = Except.error DecodeError.rangeError := by
      unfold decodeAudioData
      rw [if_pos heven]
    refine ⟨⟨?_, ?_⟩, fun _ => herr⟩
    · rintro ⟨buf, hbuf⟩
      rw [herr] at hbuf
      exact Except.noConfusion hbuf
    · rintro ⟨h, _⟩
      exact absurd h heven

/-- Witness for the amended C3 at a two-byte mono input (success case of the
characterization). -/
theorem decode_failure_conditions_witness :
    ([0, 0] : List ℕ).length / 2 / 1 < 2 ^ 32 ∧
      (((∃ buf, decodeAudioData [0, 0] 24000 1 = Except.ok buf) ↔
        ([0, 0] : List ℕ).length % 2 = 0 ∧ 0 < 1 ∧ 1 ≤ 32 ∧
          0 < ([0, 0] : List ℕ).length / 2 / 1 ∧
          (8000 : ℚ) ≤ 24000 ∧ (24000 : ℚ) ≤ 96000) ∧
      (([0, 0] : List ℕ).length % 2 ≠ 0 →
        decodeAudioData [0, 0] 24000 1 = Except.error DecodeError.rangeError)) :=
  ⟨by norm_num, decode_failure_conditions [0, 0] 24000 1 (by norm_num)⟩

/-- Counterexample to C3 as stated: a three-byte input fails with the `RangeError`
of the Int16 view construction — not a platform buffer allocation failure — while
the same parameters on the two-byte even prefix decode successfully, showing the
allocation itself was not at issue. -/
theorem decode_failure_counterexample :
    decodeAudioData [0, 0, 0] 24000 1 = Except.error DecodeError.rangeError ∧
      (decodeAudioData [0, 0] 24000 1).isOk = true := by
  constructor
  · rfl
  · norm_num [decodeAudioData, bytesToInt16List, toUint32, ratTrunc, createBuffer,
      fillChannel, List.getD, Except.isOk]
    rfl
